import Mathlib

set_option maxHeartbeats 1000000

/-!
Shallow embedding of the data-normalization and attribution pipeline of
`git-log-calendar-teams` (`src/index.js`).  JavaScript strings are modelled as
`List Char`, JavaScript objects used as string-keyed maps are modelled as
insertion-ordered association lists, `undefined`-able fields as `Option`, and
JavaScript numbers (which hold integral line counts and millisecond timestamps
in this program) as `Int`/`Nat`.  The system clock value captured by
`new Date()` at the start of an aggregation run is passed explicitly as a
`now : Int` millisecond timestamp; the host time zone is modelled as UTC.
-/

namespace GitLogCalendarTeams

/-- Strings of the JavaScript source are modelled as lists of characters. -/
abbrev Str := List Char

/-- Conversion from Lean string literals to the model's string type. -/
def str (s : String) : Str := s.data

/-- Model of JavaScript `String.prototype.toLowerCase` (ASCII case folding). -/
def lower (s : Str) : Str := s.map Char.toLower

/-- `const DIVIDER = '-_-'` (src/index.js:13). -/
def DIVIDER : Str := str "-_-"

/-- `const DAY_MILLISECONDS = 86400000` (src/index.js:15). -/
def DAY_MILLISECONDS : Int := 86400000

/-- `const STATS_FILE_POSTFIX = '.stats.json'` (src/index.js:16). -/
def STATS_FILE_POSTFIX : Str := str ".stats.json"

/-- `const UNREGISTERED_SYMBOL = '*'` (src/index.js:19). -/
def UNREGISTERED_SYMBOL : Str := str "*"

/-- `const OTHERS_LABEL = '*'` (src/index.js:20). -/
def OTHERS_LABEL : Str := str "*"

/-- A per-day record inside an author's `map` / `timestampMap`
(see the AuthorRecord shape consumed by src/index.js). -/
structure DayRecord where
  linesAdded : Int := 0
  linesDeleted : Int := 0
  linesChanged : Int := 0
  filesChanged : Int := 0
  message : Option Str := none
deriving DecidableEq, Repr

/-- An author record as persisted in a stats snapshot and consumed by the
aggregation engine (src/index.js).  `map`/`timestampMap` may be absent in a
snapshot, hence `Option`. -/
structure AuthorRecord where
  email : Str
  name : Str
  commits : Int := 0
  linesChanged : Int := 0
  map : Option (List (Str × DayRecord)) := none
  timestampMap : Option (List (Str × DayRecord)) := none
deriving DecidableEq, Repr

/-- The argument fed to `config.evaluate`: the source passes either a whole
author record (src/index.js:437) or a single day record (src/index.js:456). -/
inductive EvalItem where
  | author (a : AuthorRecord)
  | day (d : DayRecord)

/-- `const DEFAULT_EVALUATE = item => item.linesChanged` (src/index.js:40). -/
def DEFAULT_EVALUATE : EvalItem → Int
  | .author a => a.linesChanged
  | .day d => d.linesChanged

/-- A configured user (src/git-log-config.yml): canonical name plus the
lower-cased association strings used for identity resolution. -/
structure User where
  name : Str
  associations : List Str
deriving DecidableEq, Repr

/-- A configured team.  `users` is the member list (absent modelled as `[]`,
matching the `team.users = team.users || []` normalization in
`collectUnusedUsers`, src/index.js:120). -/
structure Team where
  name : Str
  users : List Str := []
  invert : Bool := false
  exclude : Option (List Str) := none
deriving DecidableEq, Repr

/-- A configured repository (url/branch omitted: they are consumed only by the
excluded git collaborator, never by the aggregation pipeline). -/
structure Repository where
  name : Str
  exclude : Option (List Str) := none
deriving DecidableEq, Repr

/-- The configuration consumed by the aggregation engine. -/
structure Config where
  repositories : List Repository := []
  users : List User := []
  teams : List Team := []
  onlyRegistered : Bool := false
  evaluate : EvalItem → Int := DEFAULT_EVALUATE

/-- A report specification (the recognized option surface of
`normalizeDataReduce`, src/index.js:408).  Absent options are `none`. -/
structure Report where
  repositories : Option (List Str) := none
  users : Option (List Str) := none
  teams : Option (List Str) := none
  others : Bool := false
  othersLabel : Option Str := none
  limit : Option Nat := none
  top : Option Nat := none
  timestamp : Bool := false

/-- `getRepositoryName` (src/index.js:112):
`repository.name.replace(/\W+/g, '-').toLowerCase()`.  A word character for
the regex `\W` is `[A-Za-z0-9_]`. -/
def isWordChar (c : Char) : Bool := c.isAlphanum || c = '_'

/-- Replace every maximal run of non-word characters by a single `'-'`
(the `replace(/\W+/g, '-')` step).  The flag records whether the previous
character was part of a non-word run. -/
def replaceNonWord : Bool → Str → Str
  | _, [] => []
  | inRun, c :: cs =>
    if isWordChar c then c :: replaceNonWord false cs
    else if inRun then replaceNonWord true cs
    else '-' :: replaceNonWord true cs

/-- `getRepositoryName` (src/index.js:112). -/
def getRepositoryName (repository : Repository) : Str :=
  lower (replaceNonWord false repository.name)


/-- `getAuthor` (src/index.js:368): lower-case both strings, return the first
configured user one of whose associations equals the email or the name. -/
def getAuthor (users : List User) (email name : Str) : Option User :=
  let name := lower name
  let email := lower email
  users.find? (fun u => u.associations.contains email || u.associations.contains name)

/-- The `!xs.exclude || !excludeXs` veto pattern shared by the membership
checks (src/index.js:234-242, 363-364, 549-555): `true` iff no exclude list is
declared or the (already lower-cased) name and email are both absent from it.
The source tests `name` before `email`. -/
def noExclude (exclude : Option (List Str)) (email name : Str) : Bool :=
  match exclude with
  | none => true
  | some ex => !(ex.contains name || ex.contains email)

/-- `isAuthorBelongToRepositoryAndTeam` (src/index.js:227). -/
def isAuthorBelongToRepositoryAndTeam (repository : Repository) (team : Team)
    (users : List User) (email name : Str) (onlyRegistered : Bool) : Bool :=
  let user := getAuthor users email name
  if onlyRegistered && user.isNone then false
  else
    let name := lower name
    let email := lower email
    let includesTeam :=
      match user with
      | some u => team.users.contains u.name
      | none => team.users.contains name || team.users.contains email
    (if team.invert then !includesTeam else includesTeam)
      && noExclude team.exclude email name
      && noExclude repository.exclude email name

/-- `isAuthorBelongToRepository` (src/index.js:356). -/
def isAuthorBelongToRepository (repository : Repository) (users : List User)
    (email name : Str) (onlyRegistered : Bool) : Bool :=
  let user := getAuthor users email name
  if onlyRegistered && user.isNone then false
  else noExclude repository.exclude (lower email) (lower name)

/-- `isAuthorBelongToTeam` (src/index.js:545); unlike the repository+team
variant it lower-cases first and resolves the user from the lowered strings. -/
def isAuthorBelongToTeam (team : Team) (users : List User) (email name : Str) : Bool :=
  let name := lower name
  let email := lower email
  let user := users.find? (fun u => u.associations.contains email || u.associations.contains name)
  let includesTeam :=
    match user with
    | some u => team.users.contains u.name
    | none => team.users.contains name || team.users.contains email
  (if team.invert then !includesTeam else includesTeam) && noExclude team.exclude email name

/-- `collectUnusedUsers` (src/index.js:117): walk the team list carrying the
accumulated member list of the non-inverted teams seen so far; an inverted
team's `users` is replaced by that accumulator snapshot.  (The
`team.users = team.users || []` normalization is the identity here because a
missing member list is already modelled as `[]`.) -/
def collectUnusedUsersAux (used : List Str) : List Team → List Str × List Team
  | [] => (used, [])
  | t :: ts =>
    if t.invert then
      let t' := { t with users := used }
      let r := collectUnusedUsersAux used ts
      (r.1, t' :: r.2)
    else
      let r := collectUnusedUsersAux (used ++ t.users) ts
      (r.1, t :: r.2)

/-- `collectUnusedUsers` (src/index.js:117), returning the updated team list
(the source mutates `config.teams` in place). -/
def collectUnusedUsers (teams : List Team) : List Team :=
  (collectUnusedUsersAux [] teams).2

/-! ### Dates and numbers -/

/-- Gregorian leap-year test. -/
def isLeapYear (y : Nat) : Bool := y % 4 == 0 && (y % 100 != 0 || y % 400 == 0)

/-- Days in a Gregorian month. -/
def daysInMonth (y m : Nat) : Nat :=
  if m = 2 then (if isLeapYear y then 29 else 28)
  else if m = 4 ∨ m = 6 ∨ m = 9 ∨ m = 11 then 30
  else 31

/-- Numeric value of a decimal digit character. -/
def digitVal (c : Char) : Nat := c.toNat - '0'.toNat

/-- Decimal value of a digit string. -/
def parseNatDigits (s : Str) : Nat := s.foldl (fun a c => a * 10 + digitVal c) 0

/-- Days from 1970-01-01 to the given civil date (year ≥ 1970). -/
def daysSinceEpoch (y m d : Nat) : Nat :=
  ((List.range (y - 1970)).map (fun i => if isLeapYear (1970 + i) then 366 else 365)).sum
    + ((List.range (m - 1)).map (fun i => daysInMonth y (i + 1))).sum
    + (d - 1)

/-- Model of `+new Date(dateString)` for the ISO `YYYY-MM-DD` day keys the
collector writes: the UTC-midnight millisecond timestamp.  (Invalid date
strings give `NaN` in JS; the model is used only on valid day keys.) -/
def parseDate (s : Str) : Int :=
  match List.splitOn '-' s with
  | [y, m, d] =>
    Int.ofNat (daysSinceEpoch (parseNatDigits y) (parseNatDigits m) (parseNatDigits d) * 86400000)
  | _ => 0


/-- Model of the JS unary `+` coercion on the nonnegative decimal timestamp
keys used in `timestampMap` mode (src/index.js:450). -/
def toNumberJS (s : Str) : Int := Int.ofNat (parseNatDigits (s.takeWhile Char.isDigit))

/-! ### The aggregation engine (`normalizeDataReduce`) -/

/-- `isAuthorBelong` (src/index.js:381). -/
def isAuthorBelong (teams : Option (List Str)) (repository : Repository)
    (author : AuthorRecord) (config : Config) : Bool :=
  match teams with
  | none =>
    isAuthorBelongToRepository repository config.users author.email author.name config.onlyRegistered
  | some ts => config.teams.any (fun team =>
      ts.contains team.name
        && isAuthorBelongToRepositoryAndTeam repository team config.users
             author.email author.name config.onlyRegistered)

/-- The synthetic user key `` `${email} ${name} ${UNREGISTERED_SYMBOL}` `` built
for unregistered authors (src/index.js:425); `email` and `name` arrive already
lower-cased there. -/
def syntheticUserKey (email name : Str) : Str :=
  email ++ str " " ++ name ++ str " " ++ UNREGISTERED_SYMBOL

/-- `report.othersLabel || OTHERS_LABEL` (src/index.js:429); the empty string
is falsy in JS. -/
def othersKey (report : Report) : Str :=
  match report.othersLabel with
  | some l => if l = [] then OTHERS_LABEL else l
  | none => OTHERS_LABEL

/-- JS truthiness of `report.limit` (src/index.js:433): absent or `0` both
disable the window. -/
def limitVal (report : Report) : Nat := report.limit.getD 0

/-- JS truthiness of `report.top` (src/index.js:474). -/
def topVal (report : Report) : Nat := report.top.getD 0

/-- The argument object passed to the visit callback by `normalizeDataReduce`
(src/index.js:435-442 and 454-463).  The threaded `data` object is supplied
separately as fold state. -/
structure CallbackArg where
  value : Int
  author : AuthorRecord
  repository : Repository
  userKey : Str
  dateString : Option Str := none
  repositoryName : Str
  message : Option Str := none
deriving DecidableEq, Repr

/-- Association-list lookup modelling `obj[key]` on a JS object used as a map. -/
def lookupAssoc {α : Type} (m : List (Str × α)) (k : Str) : Option α :=
  (m.find? (fun p => p.1 == k)).map (·.2)

/-- The stats data attached to the file map by `readStats` (src/index.js:245),
keyed by normalized repository name. -/
abbrev FileMapData := List (Str × List AuthorRecord)

/-- The visit callback invocations `normalizeDataReduce` performs for one
author of one repository's snapshot (the body of the inner loop,
src/index.js:421-469). -/
def authorVisits (report : Report) (config : Config) (repository : Repository)
    (repositoryName : Str) (author : AuthorRecord) (now : Int) : List CallbackArg :=
  if isAuthorBelong report.teams repository author config then
    let user := getAuthor config.users author.email author.name
    let email := lower author.email
    let name := lower author.name
    let userKey :=
      match user with
      | some u => u.name
      | none => syntheticUserKey email name
    let shouldLogUser : Bool :=
      match report.users with
      | none => true
      | some us =>
        match user with
        | some u => us.contains u.name
        | none => us.contains email || us.contains name
    let state :=
      if !shouldLogUser && report.others then (othersKey report, true)
      else (userKey, shouldLogUser)
    let userKey := state.1
    if state.2 then
      if limitVal report = 0 then
        [{ value := config.evaluate (.author author), author, repository, userKey, repositoryName }]
      else
        let limitTimestamp := now - (limitVal report : Int) * DAY_MILLISECONDS
        let map := if report.timestamp then author.timestampMap else author.map
        match map with
        | none => []
        | some m =>
          m.filterMap (fun p =>
            let dateString := p.1
            let timestamp := if report.timestamp then toNumberJS dateString else parseDate dateString
            if timestamp ≤ now ∧ limitTimestamp ≤ timestamp then
              some { value := config.evaluate (.day p.2), author, repository, userKey,
                     dateString := some dateString, repositoryName, message := p.2.message }
            else none)
    else []
  else []

/-- The visit callback invocations for one configured repository: snapshot
present (`fileMap[repositoryName] &&`) and allow-listed (src/index.js:417-420). -/
def repoVisits (report : Report) (fileMap : FileMapData) (config : Config)
    (now : Int) (repository : Repository) : List CallbackArg :=
  let repositoryName := getRepositoryName repository
  match lookupAssoc fileMap repositoryName with
  | none => []
  | some authors =>
    if (match report.repositories with | none => true | some rs => rs.contains repository.name) then
      authors.flatMap (fun author => authorVisits report config repository repositoryName author now)
    else []

/-- The full sequence of visit callback invocations of one
`normalizeDataReduce` run (src/index.js:417-472): every configured repository
whose snapshot is present and passes the allow-list, every author in its
snapshot. -/
def normalizeDataVisits (report : Report) (fileMap : FileMapData) (config : Config)
    (now : Int) : List CallbackArg :=
  (config.repositories.map (repoVisits report fileMap config now)).flatten

/-- Thread a state through the visit callback invocations (JS callbacks close
over their accumulator objects; the fold makes that state explicit). -/
def runVisits {σ : Type} (report : Report) (fileMap : FileMapData) (config : Config)
    (now : Int) (init : σ) (callback : CallbackArg → σ → σ) : σ :=
  (normalizeDataVisits report fileMap config now).foldl (fun s a => callback a s) init

/-- The `data` accumulator object of `normalizeDataReduce`: a JS object used as
an insertion-ordered string→number map. -/
abbrev Data := List (Str × Int)

/-- `if (!data[userKey]) { data[userKey] = 0; } data[userKey] += value;`
(src/index.js:528-531): upsert preserving JS object key insertion order. -/
def dataAdd (data : Data) (userKey : Str) (value : Int) : Data :=
  if (lookupAssoc data userKey).isSome then
    data.map (fun p => if p.1 == userKey then (p.1, p.2 + value) else p)
  else data ++ [(userKey, value)]

/-- Stable insertion of an entry into a list sorted by value descending,
after all entries of strictly greater or equal value. -/
def insertByValueDesc (x : Str × Int) : Data → Data
  | [] => [x]
  | y :: ys => if y.2 > x.2 then y :: insertByValueDesc x ys else x :: y :: ys

/-- Stable sort by value descending.  `Array.prototype.sort` with the
comparator `(a, b) => data[b] - data[a]` (src/index.js:400) is a stable
descending sort; any stable sort with the same order agrees with this
insertion sort. -/
def sortByValueDesc : Data → Data
  | [] => []
  | x :: xs => insertByValueDesc x (sortByValueDesc xs)

/-- `sortMapDataTop` (src/index.js:397): sort the keys by value descending,
keep the first `top` of them with their original values.  The model sorts the
entry list directly, which carries each key with its original value. -/
def sortMapDataTop (data : Data) (top : Nat) : Data :=
  (sortByValueDesc data).take top

/-- `normalizeDataReduce` (src/index.js:408): fold the visit callback over the
`data` accumulator, then apply the top-N truncation when `report.top` is
truthy. -/
def normalizeDataReduce (report : Report) (fileMap : FileMapData) (config : Config)
    (now : Int) (callback : CallbackArg → Data → Data) : Data :=
  let data := runVisits report fileMap config now [] callback
  if topVal report = 0 then data else sortMapDataTop data (topVal report)

/-- `normalizeUserData` (src/index.js:526). -/
def normalizeUserData (report : Report) (fileMap : FileMapData) (config : Config)
    (now : Int) : Data :=
  normalizeDataReduce report fileMap config now (fun arg data => dataAdd data arg.userKey arg.value)

/-! ### The network report (`normalizeUserConnectionData`) -/

/-- A node of the network report's output. -/
structure NetNode where
  id : Str
  name : Str
deriving DecidableEq, Repr

/-- A link of the network report's output. -/
structure NetLink where
  source : Str
  target : Str
deriving DecidableEq, Repr

/-- The network report's output shape. -/
structure NetData where
  nodes : List NetNode
  links : List NetLink
deriving DecidableEq, Repr

/-- `findUsersHasRepositories` (src/index.js:345). -/
def findUsersHasRepositories (userRepositoryMap : List (Str × List Str))
    (repositoryName : Str) : List Str :=
  (userRepositoryMap.filter (fun p => p.2.contains repositoryName)).map (·.1)

/-- `userRepositoryMap[user.name].push(repository.name)` (src/index.js:315). -/
def pushAssocRepo (m : List (Str × List Str)) (k r : Str) : List (Str × List Str) :=
  m.map (fun p => if p.1 == k then (p.1, p.2 ++ [r]) else p)

/-- `normalizeUserConnectionData` (src/index.js:306). -/
def normalizeUserConnectionData (report : Report) (fileMap : FileMapData)
    (config : Config) (now : Int) : NetData :=
  let userRepositoryMap : List (Str × List Str) := config.users.map (fun u => (u.name, []))
  let userRepositoryMap := runVisits report fileMap config now userRepositoryMap
    (fun arg m =>
      -- The source's callback destructures a `user` property from its argument
      -- (src/index.js:313), but `normalizeDataReduce` passes no such property
      -- (src/index.js:435-442, 454-463), so `user` is the JS value `undefined`
      -- and the `if (user && ...)` guard never fires.
      let user : Option User := none
      match user with
      | none => m
      | some u =>
        if !(((lookupAssoc m u.name).getD []).contains arg.repository.name) then
          pushAssocRepo m u.name arg.repository.name
        else m)
  let nodes := userRepositoryMap.map (fun p => NetNode.mk p.1 p.1)
  let links := userRepositoryMap.flatMap (fun p =>
    p.2.flatMap (fun repositoryName =>
      let users := findUsersHasRepositories userRepositoryMap repositoryName
      users.filterMap (fun user =>
        -- The source guard is `users !== name` (src/index.js:332): it compares
        -- the array `users` against the string `name`, which is always true in
        -- JS, so no self-link filtering takes place.
        if (true : Bool) then some (NetLink.mk p.1 user) else none)))
  ⟨nodes, links⟩

/-! ### The calendar series normalizer (`normalizeData`) -/

/-- One entry of the calendar series.  The source stores the original date
string in the initial entries and a `Date` object in the gap entries; both are
consumed through `new Date(...)`, modelled uniformly by the UTC timestamp. -/
structure CalEntry where
  date : Int
  value : Int
deriving DecidableEq, Repr

/-- Stable insertion into a list sorted by date ascending. -/
def insertByDateAsc (x : CalEntry) : List CalEntry → List CalEntry
  | [] => [x]
  | y :: ys => if x.date ≤ y.date then x :: y :: ys else y :: insertByDateAsc x ys

/-- Stable sort by date ascending, modelling the stable
`sort((a, b) => new Date(a.Date) - new Date(b.Date))` (src/index.js:675). -/
def sortByDateAsc : List CalEntry → List CalEntry
  | [] => []
  | x :: xs => insertByDateAsc x (sortByDateAsc xs)

/-- `normalizeData` (src/index.js:668): build entries from the date→value
mapping, sort ascending, then run the gap-filling reduce.  `setDate(getDate()
+ k + 1)` adds `k + 1` days (UTC model). -/
def normalizeData (dates : List (Str × Int)) : List CalEntry :=
  let data := dates.map (fun p => CalEntry.mk (parseDate p.1) p.2)
  let data := sortByDateAsc data
  data.foldl (fun acc value =>
    match acc.getLast? with
    | none => acc ++ [value]
    | some prev =>
      let lastDate := value.date
      let firstDate := prev.date
      let emptyDaysCount := (lastDate / DAY_MILLISECONDS - firstDate / DAY_MILLISECONDS + 1).toNat
      let emptyDates := (List.range emptyDaysCount).map
        (fun k => firstDate + ((k : Int) + 1) * DAY_MILLISECONDS)
      acc ++ emptyDates.map (fun d => CalEntry.mk d 0) ++ [value]) []

/-! ### The stats folder (`readStatsFolder`, `clean`) -/

/-- One entry of the file map built by `readStatsFolder` (src/index.js:149). -/
structure StatsFile where
  repositoryName : Str
  file : Str
  path : Str
  timestamp : Option Nat
deriving DecidableEq, Repr

/-- Model of `Number.parseInt(s, 10)` for the nonnegative decimal timestamps
the collector writes; `none` models `NaN`. -/
def parseIntJS (s : Str) : Option Nat :=
  let ds := s.takeWhile Char.isDigit
  if ds = [] then none else some (parseNatDigits ds)

/-- `<` on JS numbers where either side may be `NaN` (modelled `none`):
any comparison against `NaN` is false. -/
def ltNum : Option Nat → Option Nat → Bool
  | some a, some b => a < b
  | _, _ => false

/-- Split on a (nonempty) separator string, modelling
`String.prototype.split(sep)`.  The fuel is the input length; every step
consumes at least one character. -/
def splitSeqAux (sep : Str) : Nat → Str → Str → List Str
  | _, [], acc => [acc.reverse]
  | 0, rest, acc => [acc.reverse ++ rest]
  | fuel + 1, c :: cs, acc =>
    if sep.isPrefixOf (c :: cs) then
      acc.reverse :: splitSeqAux sep fuel ((c :: cs).drop sep.length) []
    else splitSeqAux sep fuel cs (c :: acc)

/-- `s.split(sep)` for a nonempty separator string. -/
def splitSeq (sep s : Str) : List Str := splitSeqAux sep s.length s []


/-- `String.prototype.includes(needle)`. -/
def containsSeq (needle hay : Str) : Bool := hay.tails.any (fun t => needle.isPrefixOf t)

/-- Model of `path.resolve(statsDir, file)`: the stats directory prefix joined
to the file name (sufficient for distinct file names under one directory). -/
def resolvePath (dir file : Str) : Str := dir ++ str "/" ++ file

/-- The parsing step of `readStatsFolder` (src/index.js:141-143):
`const line = file.split('.')[0]; let [repositoryName, timestamp] =
line.split(DIVIDER); timestamp = Number.parseInt(timestamp, 10);`.  A missing
second component is `undefined`, whose `parseInt` is `NaN` (`none`). -/
def parseStatsLine (file : Str) : Str × Option Nat :=
  let line := (List.splitOn '.' file).headD []
  let parts := splitSeq DIVIDER line
  (parts.headD [], (parts[1]?).bind parseIntJS)


/-- `fileMap[fileKey] = ...` on a JS object: replace in place when the key
exists, else append. -/
def setAssoc {α : Type} (m : List (Str × α)) (k : Str) (v : α) : List (Str × α) :=
  if (lookupAssoc m k).isSome then m.map (fun p => if p.1 == k then (p.1, v) else p)
  else m ++ [(k, v)]

/-- The loop body of `readStatsFolder` (src/index.js:139-158) for one directory
entry, acting on the `(fileMap, toRemove)` accumulator. -/
def readStatsStep (statsDir : Str) (acc : List (Str × StatsFile) × List Str)
    (file : Str) : List (Str × StatsFile) × List Str :=
  if containsSeq STATS_FILE_POSTFIX file then
    let parsed := parseStatsLine file
    let repositoryName := parsed.1
    let timestamp := parsed.2
    let fileKey := repositoryName
    let entry : StatsFile := ⟨repositoryName, file, resolvePath statsDir file, timestamp⟩
    match lookupAssoc acc.1 fileKey with
    | none => (setAssoc acc.1 fileKey entry, acc.2)
    | some old =>
      if ltNum old.timestamp timestamp then
        (setAssoc acc.1 fileKey entry, acc.2 ++ [old.path])
      else (acc.1, acc.2 ++ [resolvePath statsDir file])
  else acc

/-- `readStatsFolder` (src/index.js:136): fold over the directory listing. -/
def readStatsFolder (statsDir : Str) (folder : List Str) :
    List (Str × StatsFile) × List Str :=
  folder.foldl (readStatsStep statsDir) ([], [])

/-- `clean` (src/index.js:164), as a state-passing model of the file system:
`fs.removeSync(file)` for every obsolete path, applied to the folder
listing. -/
def clean (statsDir : Str) (folder : List Str) : List Str :=
  (readStatsFolder statsDir folder).2.foldl
    (fun files p => files.filter (fun f => resolvePath statsDir f != p)) folder

/-! ## Shared lemmas -/

lemma contains_of_mem {l : List Str} {a : Str} (h : a ∈ l) : l.contains a = true :=
  List.elem_eq_true_of_mem h

lemma contains_eq_false_of_not_mem {l : List Str} {a : Str} (h : a ∉ l) :
    l.contains a = false := by
  simpa using h

/-! ## C4: exclusion overrides inclusion -/

/-- C4: if a team's exclude list contains the lower-cased email or the
lower-cased name of an author, the membership check returns false, for both
values of the team's invert flag and regardless of `team.users`; likewise for
the repository's exclude list, and likewise for the team-only membership
check. -/
theorem c4_exclusion_overrides_inclusion (repository : Repository) (team : Team)
    (users : List User) (email name : Str) (onlyRegistered : Bool) (ex : List Str) :
    (team.exclude = some ex → lower email ∈ ex ∨ lower name ∈ ex →
      isAuthorBelongToRepositoryAndTeam repository team users email name onlyRegistered = false)
    ∧ (repository.exclude = some ex → lower email ∈ ex ∨ lower name ∈ ex →
      isAuthorBelongToRepositoryAndTeam repository team users email name onlyRegistered = false)
    ∧ (team.exclude = some ex → lower email ∈ ex ∨ lower name ∈ ex →
      isAuthorBelongToTeam team users email name = false) := by
  have hno : lower email ∈ ex ∨ lower name ∈ ex →
      noExclude (some ex) (lower email) (lower name) = false := by
    intro h
    simp only [noExclude]
    rcases h with h | h <;> simp [h]
  refine ⟨?_, ?_, ?_⟩ <;> intro hex hmem
  · unfold isAuthorBelongToRepositoryAndTeam
    by_cases hOR : (onlyRegistered && (getAuthor users email name).isNone) = true
    · simp [hOR]
    · simp only [hOR, if_false]
      simp [hex, hno hmem]
  · unfold isAuthorBelongToRepositoryAndTeam
    by_cases hOR : (onlyRegistered && (getAuthor users email name).isNone) = true
    · simp [hOR]
    · simp only [hOR, if_false]
      simp [hex, hno hmem]
  · unfold isAuthorBelongToTeam
    simp [hex, hno hmem]

def c4Team : Team := { name := str "t", users := [str "ada"], exclude := some [str "ada@x.com"] }

def c4Repo : Repository := { name := str "r", exclude := some [str "ada@x.com"] }

theorem c4_witness :
    isAuthorBelongToRepositoryAndTeam c4Repo c4Team [] (str "Ada@X.com") (str "Ada") false = false
    ∧ isAuthorBelongToTeam c4Team [] (str "Ada@X.com") (str "Ada") = false :=
  ⟨(c4_exclusion_overrides_inclusion c4Repo c4Team [] (str "Ada@X.com") (str "Ada") false
      [str "ada@x.com"]).1 rfl (by decide),
   (c4_exclusion_overrides_inclusion c4Repo c4Team [] (str "Ada@X.com") (str "Ada") false
      [str "ada@x.com"]).2.2 rfl (by decide)⟩

/-! ## C9: identity resolution -/

lemma find?_append_first {p : User → Bool} (pre post : List User) (U : User)
    (hpre : ∀ u ∈ pre, p u = false) (hU : p U = true) :
    List.find? p (pre ++ U :: post) = some U := by
  induction pre with
  | nil => exact List.find?_cons_of_pos _ hU
  | cons u us ih =>
    rw [List.cons_append, List.find?_cons_of_neg _ (by simp [hpre u (List.mem_cons_self u us)])]
    exact ih (fun v hv => hpre v (List.mem_cons_of_mem _ hv))

/-- C9: `getAuthor` is case-insensitive — it matches the lower-cased email or
name against the stored associations, so any re-casing of the author strings
resolves identically — and when several configured users match, the first one
in configuration declaration order wins. -/
theorem c9_identity_resolution (pre post : List User) (U : User)
    (email name email' name' : Str)
    (hpre : ∀ u ∈ pre, lower email ∉ u.associations ∧ lower name ∉ u.associations)
    (hU : lower email ∈ U.associations ∨ lower name ∈ U.associations)
    (he : lower email' = lower email) (hn : lower name' = lower name) :
    getAuthor (pre ++ U :: post) email' name' = some U := by
  simp only [getAuthor, he, hn]
  apply find?_append_first
  · intro u hu
    have h := hpre u hu
    simp [h.1, h.2]
  · rcases hU with h | h <;> simp [h]

def c9Bob : User := ⟨str "bob", [str "bob@x.com"]⟩

def c9Ada : User := ⟨str "ada", [str "ada@x.com"]⟩

theorem c9_witness :
    getAuthor [c9Bob, c9Ada] (str "ADA@X.COM") (str "Ada Lovelace") = some c9Ada :=
  c9_identity_resolution [c9Bob] [] c9Ada (str "ada@x.com") (str "ada lovelace")
    (str "ADA@X.COM") (str "Ada Lovelace") (by decide) (by decide) (by decide) (by decide)

/-! ## C10: missing snapshots are skipped -/

lemma repoVisits_config_repositories (report : Report) (fileMap : FileMapData)
    (config : Config) (rs : List Repository) (now : Int) :
    repoVisits report fileMap { config with repositories := rs } now
      = repoVisits report fileMap config now := by
  cases config
  rfl

/-- C10: a configured repository whose snapshot is absent from the file map
produces no visit callback invocations, and the aggregation output (both the
raw visit sequence and `normalizeUserData`) is the same as for the
configuration without that repository. -/
theorem c10_missing_snapshot (report : Report) (fileMap : FileMapData) (config : Config)
    (now : Int) (pre post : List Repository) (R : Repository)
    (h : lookupAssoc fileMap (getRepositoryName R) = none) :
    normalizeDataVisits report fileMap { config with repositories := [R] } now = []
    ∧ normalizeDataVisits report fileMap { config with repositories := pre ++ R :: post } now
        = normalizeDataVisits report fileMap { config with repositories := pre ++ post } now
    ∧ normalizeUserData report fileMap { config with repositories := pre ++ R :: post } now
        = normalizeUserData report fileMap { config with repositories := pre ++ post } now := by
  have hR : repoVisits report fileMap config now R = [] := by
    simp [repoVisits, h]
  have h2 : normalizeDataVisits report fileMap { config with repositories := pre ++ R :: post } now
      = normalizeDataVisits report fileMap { config with repositories := pre ++ post } now := by
    simp [normalizeDataVisits, repoVisits_config_repositories, hR]
  refine ⟨?_, h2, ?_⟩
  · simp [normalizeDataVisits, repoVisits_config_repositories, hR]
  · simp [normalizeUserData, normalizeDataReduce, runVisits, h2]

theorem c10_witness :
    normalizeDataVisits ({} : Report) [] { repositories := [⟨str "gone", none⟩] } 0 = []
    ∧ normalizeDataVisits ({} : Report) []
        { repositories := [] ++ ⟨str "gone", none⟩ :: [] } 0
        = normalizeDataVisits ({} : Report) [] { repositories := [] ++ [] } 0
    ∧ normalizeUserData ({} : Report) []
        { repositories := [] ++ ⟨str "gone", none⟩ :: [] } 0
        = normalizeUserData ({} : Report) [] { repositories := [] ++ [] } 0 :=
  c10_missing_snapshot ({} : Report) [] {} 0 [] [] ⟨str "gone", none⟩ rfl

/-! ## C3: inverted team membership -/

lemma collectUnusedUsersAux_invert_at (T : Team) (hT : T.invert = true) (post : List Team) :
    ∀ (pre : List Team), (∀ t ∈ pre, t.invert = false) → ∀ (used : List Str),
    ((collectUnusedUsersAux used (pre ++ T :: post)).2)[pre.length]?
      = some { T with users := used ++ (pre.map Team.users).flatten } := by
  intro pre
  induction pre with
  | nil =>
    intro _ used
    simp [collectUnusedUsersAux, hT]
  | cons t ts ih =>
    intro hpre used
    have ht : t.invert = false := hpre t (by simp)
    have hts : ∀ x ∈ ts, x.invert = false := fun x hx => hpre x (by simp [hx])
    simp only [List.cons_append, collectUnusedUsersAux, ht, Bool.false_eq_true, if_false,
      List.length_cons, List.getElem?_cons_succ]
    simpa [List.append_assoc] using ih hts (used ++ t.users)

/-- C3 (amended): after the collect-unused-users pass, a team with
`invert = true` holds as its `users` exactly the concatenation of the explicit
member lists of the non-inverted teams declared *before* it; teams declared
after it contribute nothing. -/
theorem c3_inverted_team_users (pre post : List Team) (T : Team)
    (hpre : ∀ t ∈ pre, t.invert = false) (hT : T.invert = true) :
    (collectUnusedUsers (pre ++ T :: post))[pre.length]?
      = some { T with users := (pre.map Team.users).flatten } := by
  simpa [collectUnusedUsers] using collectUnusedUsersAux_invert_at T hT post pre hpre []

/-- C3 counterexample: an inverted team declared before a non-inverted team
ends the pass with an empty users list, not the union of all other
non-inverted teams' members — declaration order does matter. -/
theorem c3_counterexample :
    (collectUnusedUsers
        [{ name := str "others", invert := true },
         { name := str "a-team", users := [str "alice"] }])[0]?
      = some { name := str "others", invert := true, users := [] }
    ∧ ([] : List Str) ≠ [str "alice"] := by
  decide

def c3ATeam : Team := { name := str "a-team", users := [str "alice"] }

def c3Others : Team := { name := str "others", invert := true }

theorem c3_witness :
    (collectUnusedUsers [c3ATeam, c3Others])[1]?
      = some { c3Others with users := ([c3ATeam].map Team.users).flatten } :=
  c3_inverted_team_users [c3ATeam] [] c3Others (by decide) rfl

/-! ## C5: synthetic user keys -/

lemma str_space : str " " = [' '] := rfl

lemma unregistered_symbol_eq : UNREGISTERED_SYMBOL = ['*'] := rfl

lemma syntheticUserKey_eq (email name : Str) :
    syntheticUserKey email name = email ++ ' ' :: (name ++ [' ', '*']) := by
  simp [syntheticUserKey, str_space, unregistered_symbol_eq, List.append_assoc]

lemma append_space_inj {a b x y : Str} (ha : ' ' ∉ a) (hb : ' ' ∉ b)
    (h : a ++ ' ' :: x = b ++ ' ' :: y) : a = b ∧ x = y := by
  induction a generalizing b with
  | nil =>
    cases b with
    | nil => simpa using h
    | cons c bs =>
      exfalso
      simp only [List.nil_append, List.cons_append, List.cons.injEq] at h
      exact hb (by rw [← h.1]; exact List.mem_cons_self _ _)
  | cons c cs ih =>
    cases b with
    | nil =>
      exfalso
      simp only [List.cons_append, List.nil_append, List.cons.injEq] at h
      exact ha (by rw [← h.1]; exact List.mem_cons_self _ _)
    | cons d ds =>
      simp only [List.cons_append, List.cons.injEq] at h
      have ha' : ' ' ∉ cs := fun hm => ha (List.mem_cons_of_mem _ hm)
      have hb' : ' ' ∉ ds := fun hm => hb (List.mem_cons_of_mem _ hm)
      obtain ⟨h1, h2⟩ := ih ha' hb' h.2
      exact ⟨by rw [h.1, h1], h2⟩

/-- C5 counterexample: two unregistered authors with different (email, name)
pairs receive the same synthetic key — the space-separated concatenation
collides — so the aggregation loop merges their contributions into a single
bucket; moreover a synthetic key can equal a registered user's canonical
name. -/
theorem c5_counterexample :
    syntheticUserKey (lower (str "a b")) (lower (str "c"))
      = syntheticUserKey (lower (str "a")) (lower (str "b c"))
    ∧ (str "a b", str "c") ≠ (str "a", str "b c")
    ∧ getAuthor [⟨str "a b c *", [str "zzz"]⟩] (str "a b") (str "c") = none
    ∧ getAuthor [⟨str "a b c *", [str "zzz"]⟩] (str "a") (str "b c") = none
    ∧ normalizeUserData ({} : Report)
        [(str "r", [{ email := str "a b", name := str "c", linesChanged := 5 },
                    { email := str "a", name := str "b c", linesChanged := 7 }])]
        { repositories := [{ name := str "r" }], users := [⟨str "a b c *", [str "zzz"]⟩] } 0
      = [(str "a b c *", 12)]
    ∧ str "a b c *" = (⟨str "a b c *", [str "zzz"]⟩ : User).name := by
  decide

/-- C5 (amended): synthetic keys are distinct for unregistered authors whose
(already lower-cased) identities differ, provided the emails contain no space
character; and a synthetic key always ends in `" *"`, hence never equals a
registered user's canonical name unless that name itself ends in `" *"`. -/
theorem c5_synthetic_key_injective :
    (∀ e₁ n₁ e₂ n₂ : Str, ' ' ∉ e₁ → ' ' ∉ e₂ → (e₁, n₁) ≠ (e₂, n₂) →
      syntheticUserKey e₁ n₁ ≠ syntheticUserKey e₂ n₂)
    ∧ (∀ (e n : Str) (u : User), u.name.reverse.take 2 ≠ ['*', ' '] →
      syntheticUserKey e n ≠ u.name) := by
  constructor
  · intro e₁ n₁ e₂ n₂ h₁ h₂ hne h
    rw [syntheticUserKey_eq, syntheticUserKey_eq] at h
    obtain ⟨he, hrest⟩ := append_space_inj h₁ h₂ h
    have hn : n₁ = n₂ := List.append_cancel_right hrest
    exact hne (by rw [he, hn])
  · intro e n u hu h
    apply hu
    rw [← h, syntheticUserKey_eq]
    simp [List.reverse_append]

theorem c5_witness :
    syntheticUserKey (str "a") (str "b") ≠ syntheticUserKey (str "a") (str "c")
    ∧ syntheticUserKey (str "a") (str "b") ≠ (⟨str "bob", []⟩ : User).name :=
  ⟨c5_synthetic_key_injective.1 (str "a") (str "b") (str "a") (str "c")
      (by decide) (by decide) (by decide),
   c5_synthetic_key_injective.2 (str "a") (str "b") ⟨str "bob", []⟩ (by decide)⟩

/-! ## C6: the network report -/

def c6Alice : User := ⟨str "alice", [str "alice@x.com"]⟩

def c6Bob : User := ⟨str "bob", [str "bob@x.com"]⟩

def c6Config : Config :=
  { repositories := [{ name := str "r" }], users := [c6Alice, c6Bob] }

def c6FileMap : FileMapData :=
  [(str "r", [{ email := str "alice@x.com", name := str "Alice", linesChanged := 3 },
              { email := str "bob@x.com", name := str "Bob", linesChanged := 4 }])]

/-- C6: evaluation of the network report at a failing input.  The node set is
exactly the configured users, and both users demonstrably contribute to the
shared repository `r` (the visit sequence attributes one visit to each), yet
the produced link list is empty: the source's visit callback destructures a
`user` property that `normalizeDataReduce` never passes, so no user is ever
associated with a repository and no link is ever emitted. -/
theorem c6_network_evaluation :
    (normalizeUserConnectionData ({} : Report) c6FileMap c6Config 0).nodes
      = [⟨str "alice", str "alice"⟩, ⟨str "bob", str "bob"⟩]
    ∧ (normalizeDataVisits ({} : Report) c6FileMap c6Config 0).map CallbackArg.userKey
      = [str "alice", str "bob"]
    ∧ (normalizeDataVisits ({} : Report) c6FileMap c6Config 0).map
        (fun a => a.repository.name) = [str "r", str "r"]
    ∧ (normalizeUserConnectionData ({} : Report) c6FileMap c6Config 0).links = [] := by
  decide

/-! ## C2: the calendar gap-fill -/

def c2Input : List (Str × Int) := [(str "2024-01-01", 3), (str "2024-01-04", 7)]

/-- C2: evaluation of `normalizeData` at the spec's own example.  Instead of
the four contiguous entries with values 3, 0, 0, 7 the code produces six
entries: the gap count `lastDate/DAY - firstDate/DAY + 1` overshoots by two,
yielding a zero entry for the last observed day, a zero entry one day past it,
and a duplicate entry for the last observed day. -/
theorem c2_gap_fill_evaluation :
    normalizeData c2Input
      = [⟨1704067200000, 3⟩, ⟨1704153600000, 0⟩, ⟨1704240000000, 0⟩,
         ⟨1704326400000, 0⟩, ⟨1704412800000, 0⟩, ⟨1704326400000, 7⟩]
    ∧ (normalizeData c2Input).length = 6
    ∧ parseDate (str "2024-01-01") = 1704067200000
    ∧ parseDate (str "2024-01-02") = 1704153600000
    ∧ parseDate (str "2024-01-03") = 1704240000000
    ∧ parseDate (str "2024-01-04") = 1704326400000
    ∧ parseDate (str "2024-01-05") = 1704412800000 := by
  decide

/-! ## C7: top-N truncation -/

lemma insertByValueDesc_perm (x : Str × Int) (l : Data) :
    (insertByValueDesc x l).Perm (x :: l) := by
  induction l with
  | nil => exact List.Perm.refl _
  | cons y ys ih =>
    by_cases h : y.2 > x.2
    · simp only [insertByValueDesc]
      rw [if_pos h]
      exact (ih.cons y).trans (List.Perm.swap x y ys)
    · simp only [insertByValueDesc]
      rw [if_neg h]

lemma sortByValueDesc_perm (l : Data) : (sortByValueDesc l).Perm l := by
  induction l with
  | nil => exact List.Perm.refl _
  | cons x xs ih => exact (insertByValueDesc_perm x (sortByValueDesc xs)).trans (ih.cons x)

lemma insertByValueDesc_pairwise (x : Str × Int) (l : Data)
    (h : l.Pairwise (fun a b => b.2 ≤ a.2)) :
    (insertByValueDesc x l).Pairwise (fun a b => b.2 ≤ a.2) := by
  induction l with
  | nil => simp [insertByValueDesc]
  | cons y ys ih =>
    rcases List.pairwise_cons.mp h with ⟨hy, hys⟩
    by_cases hgt : y.2 > x.2
    · simp only [insertByValueDesc]
      rw [if_pos hgt]
      refine List.pairwise_cons.mpr ⟨?_, ih hys⟩
      intro b hb
      rcases List.mem_cons.mp ((insertByValueDesc_perm x ys).mem_iff.mp hb) with rfl | h'
      · exact le_of_lt hgt
      · exact hy b h'
    · simp only [insertByValueDesc]
      rw [if_neg hgt]
      have hle : y.2 ≤ x.2 := not_lt.mp hgt
      refine List.pairwise_cons.mpr ⟨?_, h⟩
      intro b hb
      rcases List.mem_cons.mp hb with rfl | h'
      · exact hle
      · exact le_trans (hy b h') hle

lemma sortByValueDesc_pairwise (l : Data) :
    (sortByValueDesc l).Pairwise (fun a b => b.2 ≤ a.2) := by
  induction l with
  | nil => simp [sortByValueDesc]
  | cons x xs ih => exact insertByValueDesc_pairwise x _ ih

lemma insertByValueDesc_filter_eq (x : Str × Int) (l : Data) (v : Int) (hx : x.2 = v) :
    (insertByValueDesc x l).filter (fun a => a.2 == v)
      = x :: l.filter (fun a => a.2 == v) := by
  induction l with
  | nil => simp [insertByValueDesc, List.filter, hx]
  | cons y ys ih =>
    by_cases hgt : y.2 > x.2
    · have hyv : (y.2 == v) = false := by
        simp only [beq_eq_false_iff_ne, ne_eq]
        intro hyv
        rw [hyv, ← hx] at hgt
        exact lt_irrefl _ hgt
      simp only [insertByValueDesc]
      rw [if_pos hgt]
      simp [List.filter_cons, hyv, ih]
    · simp only [insertByValueDesc]
      rw [if_neg hgt]
      simp [List.filter_cons, hx]

lemma insertByValueDesc_filter_ne (x : Str × Int) (l : Data) (v : Int) (hx : x.2 ≠ v) :
    (insertByValueDesc x l).filter (fun a => a.2 == v)
      = l.filter (fun a => a.2 == v) := by
  induction l with
  | nil => simp [insertByValueDesc, List.filter_cons, hx]
  | cons y ys ih =>
    by_cases hgt : y.2 > x.2
    · simp only [insertByValueDesc]
      rw [if_pos hgt]
      simp [List.filter_cons, ih]
    · simp only [insertByValueDesc]
      rw [if_neg hgt]
      simp [List.filter_cons, hx]

lemma sortByValueDesc_filter (l : Data) (v : Int) :
    (sortByValueDesc l).filter (fun a => a.2 == v) = l.filter (fun a => a.2 == v) := by
  induction l with
  | nil => rfl
  | cons x xs ih =>
    by_cases hx : x.2 = v
    · simp only [sortByValueDesc]
      rw [insertByValueDesc_filter_eq x _ v hx, ih]
      simp [List.filter_cons, hx]
    · simp only [sortByValueDesc]
      rw [insertByValueDesc_filter_ne x _ v hx, ih]
      simp [List.filter_cons, hx]

lemma filter_take_prefix {α : Type} (p : α → Bool) :
    ∀ (l : List α) (n : Nat), ∃ m, (l.take n).filter p = (l.filter p).take m := by
  intro l
  induction l with
  | nil => intro n; exact ⟨0, by simp⟩
  | cons x xs ih =>
    intro n
    cases n with
    | zero => exact ⟨0, by simp⟩
    | succ k =>
      obtain ⟨m, hm⟩ := ih k
      by_cases hx : p x = true
      · exact ⟨m + 1, by simp [List.take_succ_cons, List.filter_cons, hx, hm]⟩
      · exact ⟨m, by simp [List.take_succ_cons, List.filter_cons, hx, hm]⟩

def c7Example : Data := [(str "A", 10), (str "B", 30), (str "C", 20)]

/-- C7: the top-N truncation keeps exactly the `top` highest-valued entries
with their original values — concretely `{A: 10, B: 30, C: 20}` with `top = 2`
yields `{B: 30, C: 20}` — its size is `min top n`, every kept entry comes from
the input, every kept value dominates every dropped value, and among
equal-valued entries the kept ones are an initial segment of the input's
insertion order (stability of the sort). -/
theorem c7_top_truncation :
    sortMapDataTop c7Example 2 = [(str "B", 30), (str "C", 20)]
    ∧ (∀ (data : Data) (top : Nat), (sortMapDataTop data top).length = min top data.length)
    ∧ (∀ (data : Data) (top : Nat), ∀ x ∈ sortMapDataTop data top, x ∈ data)
    ∧ (∀ (data : Data) (top : Nat), ∀ x ∈ sortMapDataTop data top, ∀ y ∈ data,
        y ∉ sortMapDataTop data top → y.2 ≤ x.2)
    ∧ (∀ (data : Data) (top : Nat) (v : Int), ∃ m,
        (sortMapDataTop data top).filter (fun a => a.2 == v)
          = (data.filter (fun a => a.2 == v)).take m) := by
  refine ⟨by decide, ?_, ?_, ?_, ?_⟩
  · intro data top
    rw [sortMapDataTop, List.length_take, (sortByValueDesc_perm data).length_eq]
  · intro data top x hx
    rw [sortMapDataTop] at hx
    exact (sortByValueDesc_perm data).mem_iff.mp (List.mem_of_mem_take hx)
  · intro data top x hx y hy hyn
    rw [sortMapDataTop] at hx hyn
    have hy' : y ∈ sortByValueDesc data := (sortByValueDesc_perm data).mem_iff.mpr hy
    have hsplit : sortByValueDesc data
        = (sortByValueDesc data).take top ++ (sortByValueDesc data).drop top :=
      (List.take_append_drop top _).symm
    have hyd : y ∈ (sortByValueDesc data).drop top := by
      rcases List.mem_append.mp (hsplit ▸ hy') with h | h
      · exact absurd h hyn
      · exact h
    have hpw := sortByValueDesc_pairwise data
    rw [hsplit] at hpw
    exact (List.pairwise_append.mp hpw).2.2 x hx y hyd
  · intro data top v
    obtain ⟨m, hm⟩ := filter_take_prefix (fun a => a.2 == v) (sortByValueDesc data) top
    exact ⟨m, by rw [sortMapDataTop, hm, sortByValueDesc_filter]⟩

theorem c7_witness :
    (sortMapDataTop c7Example 2).length = min 2 c7Example.length
    ∧ (str "B", (30 : Int)) ∈ c7Example
    ∧ ((10 : Int) ≤ 30)
    ∧ ∃ m, (sortMapDataTop c7Example 2).filter (fun a => a.2 == (20 : Int))
        = (c7Example.filter (fun a => a.2 == (20 : Int))).take m :=
  ⟨c7_top_truncation.2.1 c7Example 2,
   c7_top_truncation.2.2.1 c7Example 2 (str "B", 30) (by decide),
   c7_top_truncation.2.2.2.1 c7Example 2 (str "B", 30) (by decide)
     (str "A", 10) (by decide) (by decide),
   c7_top_truncation.2.2.2.2 c7Example 2 20⟩

/-! ## C1: no double counting, the limit window -/

def c1Repo : Repository := { name := str "Repo" }

/-- The per-day map of the claim's scenario author. -/
def c1Days : List (Str × DayRecord) :=
  [(str "2024-01-01", { linesChanged := 10 }), (str "2024-01-02", { linesChanged := 5 })]

/-- The scenario author: per-day map totalling the aggregate `linesChanged`. -/
def c1Author : AuthorRecord :=
  { email := str "dev@example.com", name := str "Dev", commits := 2, linesChanged := 15,
    map := some c1Days }

def c1Config : Config := { repositories := [c1Repo] }

def c1FileMap : FileMapData := [(str "repo", [c1Author])]

def c1LimitReport : Report := { limit := some 1 }

/-- The synthetic user key the loop builds for the scenario author. -/
def c1Key : Str := str "dev@example.com dev *"

def c1Arg1 : CallbackArg :=
  { value := 10, author := c1Author, repository := c1Repo, userKey := c1Key,
    dateString := some (str "2024-01-01"), repositoryName := str "repo", message := none }

def c1Arg2 : CallbackArg :=
  { value := 5, author := c1Author, repository := c1Repo, userKey := c1Key,
    dateString := some (str "2024-01-02"), repositoryName := str "repo", message := none }

/-- The per-day visit function the limit branch of the loop applies to the
scenario author's map (definitionally equal to the residual of
`authorVisits`). -/
def c1DayFun (now : Int) (p : Str × DayRecord) : Option CallbackArg :=
  if parseDate p.1 ≤ now ∧ now - (1 : Int) * DAY_MILLISECONDS ≤ parseDate p.1 then
    some { value := p.2.linesChanged, author := c1Author, repository := c1Repo,
           userKey := c1Key, dateString := some p.1, repositoryName := str "repo",
           message := p.2.message }
  else none

lemma c1_visits_eq (now : Int) (h1 : 1704153600000 < now) (h2 : now < 1704240000000) :
    normalizeDataVisits c1LimitReport c1FileMap c1Config now = [c1Arg2] := by
  have hstage : normalizeDataVisits c1LimitReport c1FileMap c1Config now
      = ((List.filterMap (c1DayFun now) c1Days) ++ []) ++ [] := rfl
  have hd1 : parseDate (str "2024-01-01") = 1704067200000 := by decide
  have hd2 : parseDate (str "2024-01-02") = 1704153600000 := by decide
  have hc1' : ¬(parseDate (str "2024-01-01") ≤ now
      ∧ now - (1 : Int) * DAY_MILLISECONDS ≤ parseDate (str "2024-01-01")) := by
    rw [hd1]
    simp only [DAY_MILLISECONDS]
    omega
  have hc2' : parseDate (str "2024-01-02") ≤ now
      ∧ now - (1 : Int) * DAY_MILLISECONDS ≤ parseDate (str "2024-01-02") := by
    rw [hd2]
    simp only [DAY_MILLISECONDS]
    omega
  have hn1 : c1DayFun now (str "2024-01-01", { linesChanged := 10 }) = none := by
    show (if parseDate (str "2024-01-01") ≤ now
        ∧ now - (1 : Int) * DAY_MILLISECONDS ≤ parseDate (str "2024-01-01") then
        some c1Arg1 else none) = none
    rw [if_neg hc1']
  have hn2 : c1DayFun now (str "2024-01-02", { linesChanged := 5 }) = some c1Arg2 := by
    show (if parseDate (str "2024-01-02") ≤ now
        ∧ now - (1 : Int) * DAY_MILLISECONDS ≤ parseDate (str "2024-01-02") then
        some c1Arg2 else none) = some c1Arg2
    rw [if_pos hc2']
  rw [hstage, List.append_nil, List.append_nil]
  show List.filterMap (c1DayFun now) c1Days = [c1Arg2]
  rw [show c1Days = [(str "2024-01-01", { linesChanged := 10 }),
    (str "2024-01-02", { linesChanged := 5 })] from rfl]
  simp [List.filterMap_cons, hn1, hn2]

/-- C1: for the scenario of one repository and one author with per-day map
`{2024-01-01: 10, 2024-01-02: 5}` (aggregate 15), a report with `limit: 1`
evaluated at any instant of 2024-01-02 after midnight UTC totals 5, and a
report with no limit totals 15; the limit branch visits each day of the
author's map at most once (the visit dates are without duplicates), and the
no-limit branch visits the author exactly once.  (At the single instant
`now = 2024-01-02T00:00:00.000Z` exactly, the window `[now - 1 day, now]`
still contains 2024-01-01, so that boundary instant is excluded by the
hypotheses.) -/
theorem c1_no_double_counting (now : Int)
    (h1 : 1704153600000 < now) (h2 : now < 1704240000000) :
    normalizeUserData c1LimitReport c1FileMap c1Config now = [(c1Key, 5)]
    ∧ normalizeUserData ({} : Report) c1FileMap c1Config now = [(c1Key, 15)]
    ∧ ((normalizeDataVisits c1LimitReport c1FileMap c1Config now).map
        CallbackArg.dateString).Nodup
    ∧ (normalizeDataVisits ({} : Report) c1FileMap c1Config now).length = 1 := by
  have hv := c1_visits_eq now h1 h2
  refine ⟨?_, ?_, ?_, ?_⟩
  · unfold normalizeUserData normalizeDataReduce runVisits
    rw [hv]
    decide
  · rfl
  · rw [hv]
    decide
  · rfl

theorem c1_witness :
    (1704153600000 : Int) < 1704196800000
    ∧ (1704196800000 : Int) < 1704240000000
    ∧ normalizeUserData c1LimitReport c1FileMap c1Config 1704196800000 = [(c1Key, 5)]
    ∧ normalizeUserData ({} : Report) c1FileMap c1Config 1704196800000 = [(c1Key, 15)] :=
  ⟨by norm_num, by norm_num,
   (c1_no_double_counting 1704196800000 (by norm_num) (by norm_num)).1,
   (c1_no_double_counting 1704196800000 (by norm_num) (by norm_num)).2.1⟩

/-! ## C8: snapshot staleness selection -/
lemma le_foldl_max_init (l : List Nat) : ∀ a : Nat, a ≤ l.foldl max a := by
  induction l with
  | nil => intro a; exact Nat.le_refl a
  | cons x xs ih => intro a; exact le_trans (Nat.le_max_left a x) (ih (max a x))

lemma mem_le_foldl_max (l : List Nat) : ∀ (a : Nat), ∀ t ∈ l, t ≤ l.foldl max a := by
  induction l with
  | nil => intro a t ht; cases ht
  | cons x xs ih =>
    intro a t ht
    rcases List.mem_cons.mp ht with rfl | h
    · exact le_trans (Nat.le_max_right a t) (le_foldl_max_init xs (max a t))
    · exact ih (max a x) t h

lemma resolvePath_inj {dir a b : Str} (h : resolvePath dir a = resolvePath dir b) : a = b := by
  unfold resolvePath at h
  exact List.append_cancel_left h

lemma forall2_zip_mem {R : Str → Nat → Prop} : ∀ {l₁ : List Str} {l₂ : List Nat},
    List.Forall₂ R l₁ l₂ → ∀ p ∈ l₁.zip l₂, R p.1 p.2 := by
  intro l₁ l₂ h
  induction h with
  | nil => intro p hp; cases hp
  | cons hR htail ih =>
    intro p hp
    rw [List.zip_cons_cons] at hp
    rcases List.mem_cons.mp hp with rfl | hp'
    · exact hR
    · exact ih p hp'

lemma forall2_exists_zip {R : Str → Nat → Prop} : ∀ {l₁ : List Str} {l₂ : List Nat},
    List.Forall₂ R l₁ l₂ → ∀ a ∈ l₁, ∃ b, (a, b) ∈ l₁.zip l₂ ∧ R a b := by
  intro l₁ l₂ h
  induction h with
  | nil => intro a ha; cases ha
  | cons hR htail ih =>
    intro a ha
    rcases List.mem_cons.mp ha with rfl | ha'
    · exact ⟨_, by rw [List.zip_cons_cons]; exact List.mem_cons_self _ _, hR⟩
    · obtain ⟨b, hb, hRb⟩ := ih a ha'
      exact ⟨b, by rw [List.zip_cons_cons]; exact List.mem_cons_of_mem _ hb, hRb⟩

def c8Entry (statsDir key f : Str) (t : Nat) : StatsFile :=
  ⟨key, f, resolvePath statsDir f, some t⟩

lemma readStatsStep_nil (statsDir key f : Str) (t : Nat)
    (hf : containsSeq STATS_FILE_POSTFIX f = true)
    (hp : parseStatsLine f = (key, some t)) :
    readStatsStep statsDir ([], []) f = ([(key, c8Entry statsDir key f t)], []) := by
  simp [readStatsStep, hf, hp, lookupAssoc, setAssoc, c8Entry]

lemma readStatsStep_single (statsDir key f : Str) (t : Nat) (c : StatsFile) (R : List Str)
    (hf : containsSeq STATS_FILE_POSTFIX f = true)
    (hp : parseStatsLine f = (key, some t)) :
    readStatsStep statsDir ([(key, c)], R) f =
      if ltNum c.timestamp (some t) then
        ([(key, c8Entry statsDir key f t)], R ++ [c.path])
      else ([(key, c)], R ++ [resolvePath statsDir f]) := by
  by_cases hlt : ltNum c.timestamp (some t) = true
  · simp [readStatsStep, hf, hp, lookupAssoc, setAssoc, c8Entry, hlt]
  · simp [readStatsStep, hf, hp, lookupAssoc, setAssoc, c8Entry, hlt]

/-- The snapshot-file well-formedness predicate of the C8 scenario: the file
name contains the stats postfix and parses to the given key and timestamp. -/
def StatsFileFor (key : Str) (f : Str) (t : Nat) : Prop :=
  containsSeq STATS_FILE_POSTFIX f = true ∧ parseStatsLine f = (key, some t)

lemma readStats_fold_spec (statsDir key : Str) {files : List Str} {tss : List Nat}
    (hall : List.Forall₂ (StatsFileFor key) files tss) :
    ∀ (c : StatsFile) (tc : Nat) (R : List Str),
    c.timestamp = some tc →
    (∀ t ∈ tss, t ≠ tc) → tss.Nodup →
    ∃ (c' : StatsFile) (tc' : Nat) (R' : List Str),
      List.foldl (readStatsStep statsDir) ([(key, c)], R) files = ([(key, c')], R')
      ∧ c'.timestamp = some tc'
      ∧ tc' = tss.foldl max tc
      ∧ (c' = c ∨ ∃ p ∈ files.zip tss, c' = c8Entry statsDir key p.1 p.2)
      ∧ (∀ x, x ∈ R' ↔ x ∈ R ∨ (x = c.path ∧ c' ≠ c)
          ∨ ∃ p ∈ files.zip tss, c8Entry statsDir key p.1 p.2 ≠ c'
              ∧ x = resolvePath statsDir p.1) := by
  induction hall with
  | nil =>
    intro c tc R htc _ _
    exact ⟨c, tc, R, rfl, htc, rfl, Or.inl rfl, by simp⟩
  | @cons f t fs ts hf htail ih =>
    intro c tc R htc hne hnd
    have ht : t ≠ tc := hne t (List.mem_cons_self _ _)
    have hne' : ∀ t' ∈ ts, t' ≠ tc := fun t' h' => hne t' (List.mem_cons_of_mem _ h')
    have htnin : t ∉ ts := (List.nodup_cons.mp hnd).1
    have hnd' : ts.Nodup := (List.nodup_cons.mp hnd).2
    rw [List.foldl_cons, readStatsStep_single statsDir key f t c R hf.1 hf.2, htc]
    by_cases hlt : tc < t
    · rw [if_pos (show ltNum (some tc) (some t) = true by simp [ltNum, hlt])]
      obtain ⟨c', tc', R', heq, hts', htc', horig, hmem⟩ :=
        ih (c8Entry statsDir key f t) t (R ++ [c.path]) rfl
          (fun t' h' heq' => htnin (heq' ▸ h')) hnd'
      refine ⟨c', tc', R', heq, hts', ?_, ?_, ?_⟩
      · rw [List.foldl_cons, Nat.max_eq_right (le_of_lt hlt)]
        exact htc'
      · rcases horig with rfl | ⟨p, hp, hpe⟩
        · exact Or.inr ⟨(f, t), by rw [List.zip_cons_cons]; exact List.mem_cons_self _ _, rfl⟩
        · exact Or.inr ⟨p, by rw [List.zip_cons_cons]; exact List.mem_cons_of_mem _ hp, hpe⟩
      · have hinit : t ≤ tc' := htc' ▸ le_foldl_max_init ts t
        have hcc : c' ≠ c := by
          intro hcc
          rw [hcc, htc] at hts'
          have : tc = tc' := Option.some.inj hts'
          omega
        intro x
        rw [hmem x]
        constructor
        · rintro (hx | ⟨hx, hne2⟩ | ⟨p, hp, hpe, hx⟩)
          · rcases List.mem_append.mp hx with hx | hx
            · exact Or.inl hx
            · exact Or.inr (Or.inl ⟨List.mem_singleton.mp hx, hcc⟩)
          · refine Or.inr (Or.inr ⟨(f, t), ?_, fun he => hne2 he.symm, ?_⟩)
            · rw [List.zip_cons_cons]
              exact List.mem_cons_self _ _
            · simpa [c8Entry] using hx
          · refine Or.inr (Or.inr ⟨p, ?_, hpe, hx⟩)
            rw [List.zip_cons_cons]
            exact List.mem_cons_of_mem _ hp
        · rintro (hx | ⟨hx, _⟩ | ⟨p, hp, hpe, hx⟩)
          · exact Or.inl (List.mem_append.mpr (Or.inl hx))
          · exact Or.inl (List.mem_append.mpr (Or.inr (by simp [hx])))
          · rw [List.zip_cons_cons] at hp
            rcases List.mem_cons.mp hp with rfl | hp'
            · exact Or.inr (Or.inl ⟨by simpa [c8Entry] using hx, fun he => hpe he.symm⟩)
            · exact Or.inr (Or.inr ⟨p, hp', hpe, hx⟩)
    · have hlt' : t < tc := lt_of_le_of_ne (not_lt.mp hlt) ht
      rw [if_neg (show ¬(ltNum (some tc) (some t) = true) by simp [ltNum, hlt])]
      obtain ⟨c', tc', R', heq, hts', htc', horig, hmem⟩ :=
        ih c tc (R ++ [resolvePath statsDir f]) htc hne' hnd'
      refine ⟨c', tc', R', heq, hts', ?_, ?_, ?_⟩
      · rw [List.foldl_cons, Nat.max_eq_left (le_of_lt hlt')]
        exact htc'
      · rcases horig with rfl | ⟨p, hp, hpe⟩
        · exact Or.inl rfl
        · exact Or.inr ⟨p, by rw [List.zip_cons_cons]; exact List.mem_cons_of_mem _ hp, hpe⟩
      · have hinit : tc ≤ tc' := htc' ▸ le_foldl_max_init ts tc
        have hft : c8Entry statsDir key f t ≠ c' := by
          intro he
          rw [← he] at hts'
          have : t = tc' := Option.some.inj hts'
          omega
        intro x
        rw [hmem x]
        constructor
        · rintro (hx | ⟨hx, hne2⟩ | ⟨p, hp, hpe, hx⟩)
          · rcases List.mem_append.mp hx with hx | hx
            · exact Or.inl hx
            · refine Or.inr (Or.inr ⟨(f, t), ?_, hft, List.mem_singleton.mp hx⟩)
              rw [List.zip_cons_cons]
              exact List.mem_cons_self _ _
          · exact Or.inr (Or.inl ⟨hx, hne2⟩)
          · refine Or.inr (Or.inr ⟨p, ?_, hpe, hx⟩)
            rw [List.zip_cons_cons]
            exact List.mem_cons_of_mem _ hp
        · rintro (hx | ⟨hx, hne2⟩ | ⟨p, hp, hpe, hx⟩)
          · exact Or.inl (List.mem_append.mpr (Or.inl hx))
          · exact Or.inr (Or.inl ⟨hx, hne2⟩)
          · rw [List.zip_cons_cons] at hp
            rcases List.mem_cons.mp hp with rfl | hp'
            · exact Or.inl (List.mem_append.mpr (Or.inr (by simp [hx])))
            · exact Or.inr (Or.inr ⟨p, hp', hpe, hx⟩)

lemma foldl_filter_notin (dir : Str) (ps : List Str) : ∀ (folder : List Str),
    ps.foldl (fun fs p => fs.filter (fun f => resolvePath dir f != p)) folder
      = folder.filter (fun f => !(ps.contains (resolvePath dir f))) := by
  induction ps with
  | nil => intro folder; simp
  | cons p ps ih =>
    intro folder
    rw [List.foldl_cons, ih, List.filter_filter]
    apply List.filter_congr
    intro f _
    cases h1 : (resolvePath dir f == p) <;> cases h2 : ps.contains (resolvePath dir f) <;>
      simp [List.contains_cons, h1, h2, bne] <;> simp_all

lemma filter_beq_self_singleton : ∀ (l : List Str), l.Nodup → ∀ a ∈ l,
    l.filter (fun f => f == a) = [a] := by
  intro l
  induction l with
  | nil => intro _ a ha; cases ha
  | cons x xs ih =>
    intro hnd a ha
    rcases List.mem_cons.mp ha with rfl | ha'
    · rw [List.filter_cons]
      have hnil : xs.filter (fun f => f == a) = [] := by
        rw [List.filter_eq_nil_iff]
        intro b hb
        have hba : b ≠ a := fun he => (List.nodup_cons.mp hnd).1 (he ▸ hb)
        simp [hba]
      simp [hnil]
    · have hxa : (x == a) = false := by
        have hne : x ≠ a := fun he => (List.nodup_cons.mp hnd).1 (he ▸ ha')
        simp [hne]
      rw [List.filter_cons]
      simp [hxa, ih (List.nodup_cons.mp hnd).2 a ha']

lemma statsFiles_nodup (key : Str) : ∀ {files : List Str} {tss : List Nat},
    List.Forall₂ (StatsFileFor key) files tss → tss.Nodup → files.Nodup := by
  intro files tss h
  induction h with
  | nil => intro _; exact List.nodup_nil
  | @cons f t fs ts hf htail ih =>
    intro hnd
    rcases List.nodup_cons.mp hnd with ⟨htnin, hnd'⟩
    refine List.nodup_cons.mpr ⟨?_, ih hnd'⟩
    intro hfin
    obtain ⟨t', hmem, hf'⟩ := forall2_exists_zip htail f hfin
    have hts : t' = t := by
      have h2 := hf'.2.symm.trans hf.2
      exact Option.some.inj (congrArg Prod.snd h2)
    exact htnin (hts ▸ (List.of_mem_zip hmem).2)

/-- C8: for a stats folder holding several snapshot files for the same
repository key with pairwise distinct timestamps, `readStatsFolder` selects
exactly the file with the greatest timestamp into the file map; the resolved
path of every other snapshot file is placed in the to-remove list, the
champion's path is not, and the `clean` operation deletes precisely the
others, leaving only the champion file in the folder. -/
theorem c8_snapshot_staleness (statsDir key : Str) (files : List Str) (tss : List Nat)
    (hall : List.Forall₂ (StatsFileFor key) files tss)
    (hnd : tss.Nodup) (hne : files ≠ []) :
    ∃ (champ : Str) (tmax : Nat),
      champ ∈ files ∧ parseStatsLine champ = (key, some tmax) ∧ (∀ t ∈ tss, t ≤ tmax)
      ∧ (readStatsFolder statsDir files).1
          = [(key, ⟨key, champ, resolvePath statsDir champ, some tmax⟩)]
      ∧ (∀ f ∈ files, f ≠ champ →
          resolvePath statsDir f ∈ (readStatsFolder statsDir files).2)
      ∧ resolvePath statsDir champ ∉ (readStatsFolder statsDir files).2
      ∧ clean statsDir files = [champ] := by
  cases files with
  | nil => exact absurd rfl hne
  | cons f0 fs =>
    cases tss with
    | nil => cases hall
    | cons t0 ts =>
      cases hall with
      | cons hf0 htail =>
        have hnd0 := List.nodup_cons.mp hnd
        have hfold : readStatsFolder statsDir (f0 :: fs)
            = List.foldl (readStatsStep statsDir)
                ([(key, c8Entry statsDir key f0 t0)], []) fs := by
          rw [readStatsFolder, List.foldl_cons,
            readStatsStep_nil statsDir key f0 t0 hf0.1 hf0.2]
        obtain ⟨c', tc', R', heq, hts', htc', horig, hmem⟩ :=
          readStats_fold_spec statsDir key htail (c8Entry statsDir key f0 t0) t0 [] rfl
            (fun t' h' he => hnd0.1 (he ▸ h')) hnd0.2
        obtain ⟨champ, hchampmem, hchampparse, hcform⟩ :
            ∃ ch, ch ∈ f0 :: fs ∧ parseStatsLine ch = (key, some tc')
              ∧ c' = c8Entry statsDir key ch tc' := by
          rcases horig with rfl | ⟨p, hp, rfl⟩
          · have h := hts'
            simp only [c8Entry, Option.some.injEq] at h
            exact ⟨f0, List.mem_cons_self _ _, by rw [← h]; exact hf0.2, by rw [h]⟩
          · have h := hts'
            simp only [c8Entry, Option.some.injEq] at h
            have hpf := forall2_zip_mem htail p hp
            exact ⟨p.1, List.mem_cons_of_mem _ (List.of_mem_zip hp).1,
              by rw [← h]; exact hpf.2, by rw [h]⟩
        have hchampfile : c'.file = champ := by rw [hcform]; rfl
        have hmem_in : ∀ f ∈ f0 :: fs, f ≠ champ → resolvePath statsDir f ∈ R' := by
          intro f hfm hfne
          rcases List.mem_cons.mp hfm with rfl | hfin
          · apply (hmem _).mpr
            refine Or.inr (Or.inl ⟨by simp [c8Entry], ?_⟩)
            intro he
            apply hfne
            have hfile : c'.file = f := by rw [he]; rfl
            rw [hchampfile] at hfile
            exact hfile.symm
          · obtain ⟨t', hzip, hsf⟩ := forall2_exists_zip htail f hfin
            apply (hmem _).mpr
            refine Or.inr (Or.inr ⟨(f, t'), hzip, ?_, rfl⟩)
            intro he
            apply hfne
            have hfile : c'.file = f := by rw [← he]; rfl
            rw [hchampfile] at hfile
            exact hfile.symm
        have hmem_out : resolvePath statsDir champ ∉ R' := by
          intro hx
          rcases (hmem _).mp hx with hx | ⟨hx, hne2⟩ | ⟨p, hp, hpe, hx⟩
          · exact absurd hx (List.not_mem_nil _)
          · have hcf : champ = f0 := by
              apply resolvePath_inj
              simpa [c8Entry] using hx
            apply hne2
            rw [hcform, hcf]
            have h1 := hchampparse
            rw [hcf] at h1
            have h2 := h1.symm.trans hf0.2
            have h3 : tc' = t0 := Option.some.inj (congrArg Prod.snd h2)
            rw [h3]
          · have hpf := forall2_zip_mem htail p hp
            have hcf : champ = p.1 := resolvePath_inj hx
            apply hpe
            have h1 := hchampparse
            rw [hcf] at h1
            have h2 := h1.symm.trans hpf.2
            have h3 : tc' = p.2 := Option.some.inj (congrArg Prod.snd h2)
            rw [hcform, hcf, h3]
        have hndf : (f0 :: fs).Nodup :=
          statsFiles_nodup key (List.Forall₂.cons hf0 htail) hnd
        have hclean : clean statsDir (f0 :: fs) = [champ] := by
          unfold clean
          rw [hfold, heq]
          show R'.foldl (fun fs p => fs.filter (fun f => resolvePath statsDir f != p))
            (f0 :: fs) = [champ]
          rw [foldl_filter_notin]
          have hpred : ∀ f ∈ f0 :: fs,
              (!(R'.contains (resolvePath statsDir f))) = (f == champ) := by
            intro f hfm
            by_cases hfc : f = champ
            · subst hfc
              simp [hmem_out]
            · simp [hmem_in f hfm hfc, hfc]
          rw [List.filter_congr hpred, filter_beq_self_singleton _ hndf champ hchampmem]
        refine ⟨champ, tc', hchampmem, hchampparse, ?_, ?_, ?_, ?_, hclean⟩
        · intro t htm
          rw [htc']
          rcases List.mem_cons.mp htm with rfl | h
          · exact le_foldl_max_init ts t
          · exact mem_le_foldl_max ts t0 t h
        · rw [hfold, heq, hcform]
          rfl
        · intro f hfm hfne
          rw [hfold, heq]
          exact hmem_in f hfm hfne
        · rw [hfold, heq]
          exact hmem_out

theorem c8_witness :
    ∃ (champ : Str) (tmax : Nat),
      champ ∈ [str "repo-_-1.stats.json", str "repo-_-2.stats.json"]
      ∧ parseStatsLine champ = (str "repo", some tmax)
      ∧ (∀ t ∈ [1, 2], t ≤ tmax)
      ∧ (readStatsFolder (str "stats")
            [str "repo-_-1.stats.json", str "repo-_-2.stats.json"]).1
          = [(str "repo", ⟨str "repo", champ, resolvePath (str "stats") champ, some tmax⟩)]
      ∧ (∀ f ∈ [str "repo-_-1.stats.json", str "repo-_-2.stats.json"], f ≠ champ →
          resolvePath (str "stats") f
            ∈ (readStatsFolder (str "stats")
                [str "repo-_-1.stats.json", str "repo-_-2.stats.json"]).2)
      ∧ resolvePath (str "stats") champ
          ∉ (readStatsFolder (str "stats")
              [str "repo-_-1.stats.json", str "repo-_-2.stats.json"]).2
      ∧ clean (str "stats") [str "repo-_-1.stats.json", str "repo-_-2.stats.json"]
          = [champ] :=
  c8_snapshot_staleness (str "stats") (str "repo")
    [str "repo-_-1.stats.json", str "repo-_-2.stats.json"] [1, 2]
    (List.Forall₂.cons ⟨by decide, by decide⟩
      (List.Forall₂.cons ⟨by decide, by decide⟩ List.Forall₂.nil))
    (by decide) (by decide)

end GitLogCalendarTeams
